import Mathlib

/-!
Verification of the Newton-type optimizer (`newton_opt` in
`Optimization_Using_Autodiff.ipynb`) and the equality-constrained QP solver
(`QP` in `Equality_constrained_optimization_QP.ipynb`).

The Python code computes with IEEE floating point; all claims under study are
about the exact-arithmetic content of the algorithms, so the embedding uses `ℚ`.
Division by zero in `ℚ` yields `0` (where IEEE would yield `±inf`/`NaN`); every
place where this matters is noted explicitly.  Vectors are `Fin d → ℚ`,
matrices are Mathlib `Matrix` over `ℚ`.

The file is organized with all definitions first, followed by all lemmas and
theorems.
-/

open Matrix

namespace NewtonOpt

/-- Vectors of dimension `d` (the code works with `(d,1)` column tensors). -/
abbrev Vec (d : ℕ) := Fin d → ℚ

/-- Square `d × d` matrices. -/
abbrev Mat (d : ℕ) := Matrix (Fin d) (Fin d) ℚ

/-- Squared Euclidean norm; `np.linalg.norm v < eps` is equivalent (over exact
arithmetic, for the purposes of the exit test) to
`0 < eps ∧ sqNorm v < eps * eps`, which is how the comparison is embedded. -/
def sqNorm {d : ℕ} (v : Vec d) : ℚ := ∑ i, v i * v i

/-- The dot product `tf.reduce_sum(tf.multiply(u, v))` of two column tensors. -/
def dot {d : ℕ} (u v : Vec d) : ℚ := ∑ i, u i * v i

/-!
### Armijo backtracking line search

Embedding of the inner `while` loop of `newton_opt.optimize` (run when
`self.global_ == True`):

```
gamma_ = 0.1
beta_ = 0.8
t = 1.
while self.fs(self.x+t*dx) >= (self.fs(self.x)+gamma_*t*tf.reduce_sum(tf.multiply(gradf, dx))) or t < 0.1:
    t = beta_*t
dx = t*dx
```

The loop has no iteration bound in the source; the embedding adds a `fuel`
argument, with `none` meaning "the loop has not exited within `fuel`
iterations".  A result that is `none` for *every* fuel is a loop that never
exits.
-/

/-- The loop guard: the backtracking loop keeps running while the Armijo test
*fails* (`fs(x+t·dx) ≥ fs(x) + γ·t·(g·dx)`) **or** while `t < 0.1`.  Note the
disjunction is exactly as in the source: `t < 0.1` keeps the loop running. -/
def armijoGuard {d : ℕ} (fs : Vec d → ℚ) (x dx gradf : Vec d) (t : ℚ) : Prop :=
  fs (x + t • dx) ≥ fs x + (1/10) * t * dot gradf dx ∨ t < 1/10

instance {d : ℕ} (fs : Vec d → ℚ) (x dx gradf : Vec d) (t : ℚ) :
    Decidable (armijoGuard fs x dx gradf t) := by
  unfold armijoGuard; infer_instance

/-- The backtracking loop itself, with `γ = 0.1`, `β = 0.8`, started by the
source at `t = 1`.  Returns the accepted `t`, or `none` if the loop has not
exited after `fuel` iterations. -/
def armijoLS {d : ℕ} (fs : Vec d → ℚ) (x dx gradf : Vec d) :
    ℕ → ℚ → Option ℚ
  | 0, _ => none
  | fuel + 1, t =>
    if armijoGuard fs x dx gradf t then armijoLS fs x dx gradf fuel ((4/5) * t)
    else some t

/-!
### The outer `optimize` loop

Embedding of the `while True:` loop of `newton_opt.optimize`.  One pass of the
loop computes the step `dx` for the current iterate, updates
`self.x = self.x + dx`, increments `i`, and then tests

```
if np.linalg.norm(dx.numpy()) < self.eps or i > max_it:
    ...
    if i > max_it:
        print("Warning: Maximum iteration crossed. ...")
    break
return self.x
```

The per-iteration step `dx` (which depends on the method through the gradient
and curvature matrix) is abstracted as a function `step : Vec d → Vec d` of the
current iterate; this covers every run of the loop in which each iteration
produces a step — i.e. every `global_ = False` run of the methods whose `dx`
depends only on `x` (GD, GN, LM, EN), and every `global_ = True` run whose
inner line searches all return.  `optLoopG` below integrates the line search
explicitly, and `bfgsLoop` threads the curvature-matrix state.

The loop result records the returned iterate (`self.x` after the final
update), the final iteration counter, whether the max-iteration warning was
printed (the code never raises: non-convergence is a printed warning and the
last iterate is still returned), and the final step `dx` that triggered the
exit.  The `fuel` argument again bounds the recursion; the theorems show fuel
`max_it + 1` always suffices. -/

/-- Exit test of the loop: `norm(dx) < eps or i > max_it`, with the norm
comparison expressed on squares (equivalent over exact arithmetic since the
Euclidean norm is nonnegative). -/
def stopCond {d : ℕ} (dx : Vec d) (eps : ℚ) (maxIt i : ℕ) : Prop :=
  (0 < eps ∧ sqNorm dx < eps * eps) ∨ maxIt < i

instance {d : ℕ} (dx : Vec d) (eps : ℚ) (maxIt i : ℕ) :
    Decidable (stopCond dx eps maxIt i) := by
  unfold stopCond; infer_instance

/-- Result of one `optimize` call. -/
structure OptResult (d : ℕ) where
  x : Vec d
  iters : ℕ
  warned : Bool
  lastdx : Vec d
deriving DecidableEq

/-- The `while True:` loop with the per-iteration step abstracted. -/
def optLoop {d : ℕ} (step : Vec d → Vec d) (eps : ℚ) (maxIt : ℕ) :
    ℕ → Vec d → ℕ → Option (OptResult d)
  | 0, _, _ => none
  | fuel + 1, x, i =>
    let dx := step x
    let x' := x + dx
    let i' := i + 1
    if stopCond dx eps maxIt i' then
      some ⟨x', i', decide (maxIt < i'), dx⟩
    else
      optLoop step eps maxIt fuel x' i'

/-!
### Gradient-descent step

For `method == "GD"` the code sets `B = (1/self.alpha)*tf.eye(self.m)`,
`invB = tf.linalg.pinv(B)` and `dx = -tf.matmul(invB, gradf)`.
`tf.linalg.pinv` is specified as the Moore–Penrose pseudoinverse; for the
scalar multiples of the identity that GD produces, the pseudoinverse is
`c⁻¹ • 1` for `c ≠ 0` and `0` for `c = 0`, which `pinvScalarId` computes and
`pinvScalarId_isPseudoinverse` certifies against the four Penrose
conditions. -/

/-- The four Penrose conditions: `P` is the Moore–Penrose pseudoinverse of `M`
iff all four hold (over `ℚ`, where transpose is the adjoint). -/
def IsPseudoinverse {d : ℕ} (M P : Mat d) : Prop :=
  M * P * M = M ∧ P * M * P = P ∧ (M * P)ᵀ = M * P ∧ (P * M)ᵀ = P * M

/-- Moore–Penrose pseudoinverse of `c • 1` (what `tf.linalg.pinv` returns on
the matrices `(1/alpha) * eye(m)` built by the GD branch). -/
def pinvScalarId (d : ℕ) (c : ℚ) : Mat d :=
  if c = 0 then 0 else c⁻¹ • 1

/-- The GD step `dx = -tf.matmul(pinv((1/alpha)*eye), gradf)` as a function of
the gradient value `g` at the current iterate. -/
def gdStep {d : ℕ} (alpha : ℚ) (g : Vec d) : Vec d :=
  -((pinvScalarId d alpha⁻¹).mulVec g)

/-- `optimize` with the line search enabled, GD instance: the same outer loop
as `optLoop`, specialized to the GD step and with the Armijo backtracking
loop run on every iteration, exactly as `optimize` does when
`global_ == True`: the raw step is scaled by the accepted `t` before the
update.  If the inner loop never accepts (it returns `none` for the given
inner fuel), the whole call returns `none`: a run whose inner loop never
exits never reaches the outer exit test. -/
def optLoopG {d : ℕ} (grad : Vec d → Vec d) (fs : Vec d → ℚ) (alpha eps : ℚ)
    (maxIt lsFuel : ℕ) : ℕ → Vec d → ℕ → Option (OptResult d)
  | 0, _, _ => none
  | fuel + 1, x, i =>
    let g := grad x
    let dx0 := gdStep alpha g
    match armijoLS fs x dx0 g lsFuel 1 with
    | none => none
    | some t =>
      let dx := t • dx0
      let x' := x + dx
      let i' := i + 1
      if stopCond dx eps maxIt i' then
        some ⟨x', i', decide (maxIt < i'), dx⟩
      else
        optLoopG grad fs alpha eps maxIt lsFuel fuel x' i'

/-!
### BFGS curvature update

Embedding of the `if self.method == "BFGS":` block of `optimize`:

```
s = dx
st = tf.transpose(s)
yt = self.jacob(self.x) - self.jacob(xold)
y = tf.transpose(yt)
c1 = tf.matmul(tf.matmul(st, B), s)
c2 = tf.matmul(st, y)
Bs = tf.matmul(B, s)
B = B - (1/c1)*tf.matmul(Bs, tf.transpose(Bs)) + (1/c2)*tf.matmul(y, yt)
```

`c1` and `c2` are `1×1` tensors; `(1/c1)` and `(1/c2)` broadcast them as
scalars, embedded here as `ℚ` values.  The code divides unconditionally; in
the `ℚ` embedding a zero denominator gives `0⁻¹ = 0` where IEEE arithmetic
would produce `±inf` and then `NaN` entries — either way, silently. -/

/-- The denominator `s' B s`. -/
def bfgsC1 {d : ℕ} (B : Mat d) (s : Vec d) : ℚ := dot s (B.mulVec s)

/-- The denominator `s' y`. -/
def bfgsC2 {d : ℕ} (s y : Vec d) : ℚ := dot s y

/-- The rank-2 BFGS update, performed unconditionally exactly as in the
source: no check of either denominator precedes the division. -/
def bfgsUpdate {d : ℕ} (B : Mat d) (s y : Vec d) : Mat d :=
  B - (bfgsC1 B s)⁻¹ • vecMulVec (B.mulVec s) (B.mulVec s)
    + (bfgsC2 s y)⁻¹ • vecMulVec y y

/-- Modelled from the spec: the spec's error model (*DegenerateBFGSUpdate*)
demands that an update with `s'Bs = 0` or `s'y = 0` "MUST fail explicitly …
propagate as a reported error, aborting optimization"; no such check exists
anywhere in the source, so the mandated behaviour is modelled here from the
spec's words, with `none` as the reported error. -/
def bfgsUpdateChecked {d : ℕ} (B : Mat d) (s y : Vec d) : Option (Mat d) :=
  if bfgsC1 B s = 0 ∨ bfgsC2 s y = 0 then none else some (bfgsUpdate B s y)

/-- The `optimize` loop for `method == "BFGS"`: the state carries the
curvature matrix, initialized by the caller to `1*tf.eye(self.m)`; each pass
computes `dx = -pinv(B) @ gradf`, updates the iterate, performs the BFGS
update, and only then runs the exit test — exactly the statement order of the
source.  `tf.linalg.pinv` on the evolving matrix `B` is abstracted as the
oracle argument `pinv`. -/
def bfgsLoop {d : ℕ} (grad : Vec d → Vec d) (pinv : Mat d → Mat d)
    (eps : ℚ) (maxIt : ℕ) :
    ℕ → Vec d → Mat d → ℕ → Option (OptResult d × Mat d)
  | 0, _, _, _ => none
  | fuel + 1, x, B, i =>
    let dx := -((pinv B).mulVec (grad x))
    let x' := x + dx
    let y := grad x' - grad x
    let B' := bfgsUpdate B dx y
    let i' := i + 1
    if stopCond dx eps maxIt i' then
      some (⟨x', i', decide (maxIt < i'), dx⟩, B')
    else
      bfgsLoop grad pinv eps maxIt fuel x' B' i'

/-- The exact gradient of the one-dimensional squared-error objective
`fs(v) = (v₀ - 1/2)²` (model error `v₀ - 1/2`), i.e. `∇fs(v) = 2 v₀ - 1`,
which is what the autodiff tape computes for `jacob`. -/
def gdOscGrad : Vec 1 → Vec 1 := fun x => fun _ => 2 * x 0 - 1

/-- The GD step the code computes on that objective with `alpha = 1`. -/
def gdOscStep : Vec 1 → Vec 1 := fun x => gdStep 1 (gdOscGrad x)

end NewtonOpt

namespace QPSolve

/-!
### The equality-constrained QP solver

Embedding of `QP(B, c, A, b, method)` from
`Equality_constrained_optimization_QP.ipynb`.  The function body reads the
variables `m` and `n` from the *enclosing scope* (they are not parameters):
`Z = q[:,m:]`, `Y = q[:,:m]`, `Rp = r[:m,:]` in the NullSpace branch and the
block sizes of the KKT system in the naive branch.  The embedding therefore
takes the ambient value of `m` explicitly (`gm` below, with the bound
`gm ≤ n` that makes the slices well-formed; NumPy clamps out-of-range slices,
a case no claim needs).

The library calls are embedded by their contracts:

* `np.linalg.qr(A.T, mode='complete')` returns `q` orthogonal (`qᵀq = 1`) and
  `r` upper triangular with `A.T = q @ r` (`IsCompleteQR`);
* `np.linalg.lstsq(M, v)` returns a least-squares solution, characterized by
  the normal equations `Mᵀ(Mx - v) = 0` (`IsLstsq`); the claims that need a
  unique output carry the rank hypotheses making it unique.

A run of each branch is the conjunction of these contracts along the data
flow of the source, with every intermediate value a parameter of the
relation. -/

/-- `M[:, :g]` — the first `g` columns. -/
def sliceColsTo {k k' : ℕ} (M : Matrix (Fin k) (Fin k') ℚ) (g : ℕ)
    (hg : g ≤ k') : Matrix (Fin k) (Fin g) ℚ :=
  fun i j => M i ⟨j.1, by have := j.isLt; omega⟩

/-- `M[:, g:]` — the columns from `g` on. -/
def sliceColsFrom {k k' : ℕ} (M : Matrix (Fin k) (Fin k') ℚ) (g : ℕ)
    (hg : g ≤ k') : Matrix (Fin k) (Fin (k' - g)) ℚ :=
  fun i j => M i ⟨g + j.1, by have := j.isLt; omega⟩

/-- `M[:g, :]` — the first `g` rows. -/
def sliceRowsTo {k k' : ℕ} (M : Matrix (Fin k) (Fin k') ℚ) (g : ℕ)
    (hg : g ≤ k) : Matrix (Fin g) (Fin k') ℚ :=
  fun i j => M ⟨i.1, by have := i.isLt; omega⟩ j

/-- Upper triangular: everything strictly below the main diagonal is zero. -/
def UpperTri {k k' : ℕ} (R : Matrix (Fin k) (Fin k') ℚ) : Prop :=
  ∀ (i : Fin k) (j : Fin k'), (j : ℕ) < (i : ℕ) → R i j = 0

/-- Contract of `np.linalg.qr(M, mode='complete')`. -/
def IsCompleteQR {k k' : ℕ} (M : Matrix (Fin k) (Fin k') ℚ)
    (q : Matrix (Fin k) (Fin k) ℚ) (r : Matrix (Fin k) (Fin k') ℚ) : Prop :=
  qᵀ * q = 1 ∧ UpperTri r ∧ M = q * r

/-- Contract of `np.linalg.lstsq(M, v)`: the returned `x` is a least-squares
solution, i.e. satisfies the normal equations (over `ℚ` a point minimizes
`‖Mx - v‖²` iff the normal equations hold). -/
def IsLstsq {α β : Type} [Fintype α] [Fintype β] (M : Matrix α β ℚ)
    (v : α → ℚ) (x : β → ℚ) : Prop :=
  Mᵀ.mulVec (M.mulVec x - v) = 0

/-- `A` (shape `m × n`) has full row rank `m`, i.e. its rows are linearly
independent, i.e. `Aᵀ` has trivial kernel. -/
def FullRowRank {m n : ℕ} (A : Matrix (Fin m) (Fin n) ℚ) : Prop :=
  Function.Injective Aᵀ.mulVec

/-- Positive definiteness over `ℚ` (no symmetry requirement, matching the
spec's "reduced Hessian positive definite" on the possibly nonsymmetric
`Z'BZ`). -/
def MPosDef {k : ℕ} (M : Matrix (Fin k) (Fin k) ℚ) : Prop :=
  ∀ w, w ≠ 0 → 0 < w ⬝ᵥ M.mulVec w

/-- `Z = q[:,m:]`, the code's kernel basis (with the ambient `m` as `g`). -/
def nsZ {n : ℕ} (q : Matrix (Fin n) (Fin n) ℚ) (g : ℕ) (hg : g ≤ n) :
    Matrix (Fin n) (Fin (n - g)) ℚ :=
  sliceColsFrom q g hg

/-- `Y = q[:,:m]`. -/
def nsY {n : ℕ} (q : Matrix (Fin n) (Fin n) ℚ) (g : ℕ) (hg : g ≤ n) :
    Matrix (Fin n) (Fin g) ℚ :=
  sliceColsTo q g hg

/-- `Rp = r[:m,:]`. -/
def nsRp {n m : ℕ} (r : Matrix (Fin n) (Fin m) ℚ) (g : ℕ) (hg : g ≤ n) :
    Matrix (Fin g) (Fin m) ℚ :=
  sliceRowsTo r g hg

/-- A run of the `method == "NullSpace"` branch, with the ambient value of the
global `m` passed as `gm`.  Beyond the library contracts, the conjuncts are
literally the assignments of the source:

```
q, r  = np.linalg.qr(A.T, mode='complete')
Z = q[:,m:]; Y = q[:,:m]; Rp = r[:m,:]
x_special = np.linalg.lstsq(A, -1*b)[0]
a_ = Z.T@B@Z
b_ = Z.T@c + Z.T@B@x_special
x_g = np.linalg.lstsq(a_, -1*b_)[0]
x = Z@x_g + x_special
lambda_ = np.linalg.lstsq(Rp, -Y.T@(B@x+c))[0]
``` -/
def QPNullRun {n m : ℕ} (gm : ℕ) (hg : gm ≤ n)
    (B : Matrix (Fin n) (Fin n) ℚ) (c : Fin n → ℚ)
    (A : Matrix (Fin m) (Fin n) ℚ) (b : Fin m → ℚ)
    (q : Matrix (Fin n) (Fin n) ℚ) (r : Matrix (Fin n) (Fin m) ℚ)
    (xs : Fin n → ℚ) (xg : Fin (n - gm) → ℚ)
    (x : Fin n → ℚ) (lam : Fin m → ℚ) : Prop :=
  IsCompleteQR Aᵀ q r ∧
  IsLstsq A (-b) xs ∧
  IsLstsq ((nsZ q gm hg)ᵀ * B * nsZ q gm hg)
    (-((nsZ q gm hg)ᵀ.mulVec c + ((nsZ q gm hg)ᵀ * B).mulVec xs)) xg ∧
  x = (nsZ q gm hg).mulVec xg + xs ∧
  IsLstsq (nsRp r gm hg) (-((nsY q gm hg)ᵀ.mulVec (B.mulVec x + c))) lam

/-- A run of the naive branch (with the ambient `n`, `m` agreeing with the
argument shapes, as in the notebook's example cell): build the KKT system

```
nA_ = [[B, A.T], [A, 0]];  nb_ = [-c, -b]
x_lambda = np.linalg.lstsq(nA_, nb_)[0]
x = x_lambda[:n];  lambda_ = x_lambda[n:]
``` -/
def QPNaiveRun {n m : ℕ}
    (B : Matrix (Fin n) (Fin n) ℚ) (c : Fin n → ℚ)
    (A : Matrix (Fin m) (Fin n) ℚ) (b : Fin m → ℚ)
    (xl : Fin n ⊕ Fin m → ℚ) : Prop :=
  IsLstsq (Matrix.fromBlocks B Aᵀ A 0) (Sum.elim (-c) (-b)) xl

/-- Claim C3 as stated: the QP solver's output is a pure function of the
arguments `(B, c, A, b)` alone, independent of the ambient/global state — in
particular of the enclosing scope's `m` that the NullSpace branch slices
with. -/
def QPNullSpacePure : Prop :=
  ∀ (n m : ℕ) (B : Matrix (Fin n) (Fin n) ℚ) (c : Fin n → ℚ)
    (A : Matrix (Fin m) (Fin n) ℚ) (b : Fin m → ℚ)
    (gm gm' : ℕ) (hg : gm ≤ n) (hg' : gm' ≤ n)
    (q r xs xg x lam q' r' xs' xg' x' lam'),
    QPNullRun gm hg B c A b q r xs xg x lam →
    QPNullRun gm' hg' B c A b q' r' xs' xg' x' lam' →
    x = x' ∧ lam = lam'

/-- Claim C4 as stated: in every NullSpace run (with the consistent ambient
`gm = m`), the returned multipliers satisfy the *transposed* triangular
system `Rpᵀ · λ = -Yᵀ(Bx + c)`. -/
def QPNullMultiplierSpec : Prop :=
  ∀ (n m : ℕ) (hg : m ≤ n) (B : Matrix (Fin n) (Fin n) ℚ) (c : Fin n → ℚ)
    (A : Matrix (Fin m) (Fin n) ℚ) (b : Fin m → ℚ)
    (q r xs xg x lam),
    QPNullRun m hg B c A b q r xs xg x lam →
    (nsRp r m hg)ᵀ.mulVec lam = -((nsY q m hg)ᵀ.mulVec (B.mulVec x + c))

/-!
### Concrete instances

`A0 …` (`n = m = 2`, square constraint matrix, rational complete QR) feeds
the C4 analysis; `A1 …` (`n = 2`, `m = 1`) feeds the C3 analysis, with
ambient `gm = 1` (consistent) against `gm = 2` (stale global), and `q0n, r1n`
a second valid QR factorization of the same `A1ᵀ` (all signs flipped);
`A5 …` (`n = m = 1`) is the small well-posed instance used by the C5/C6
witnesses. -/

def A0 : Matrix (Fin 2) (Fin 2) ℚ := !![3, 4; 0, 1]
def q0 : Matrix (Fin 2) (Fin 2) ℚ := !![3/5, -4/5; 4/5, 3/5]
def r0 : Matrix (Fin 2) (Fin 2) ℚ := !![5, 4/5; 0, 3/5]
def B0 : Matrix (Fin 2) (Fin 2) ℚ := !![1, 0; 0, 1]
def c0 : Fin 2 → ℚ := ![0, 0]
def b0 : Fin 2 → ℚ := ![-3, 0]
def xs0 : Fin 2 → ℚ := ![1, 0]
def x0 : Fin 2 → ℚ := ![1, 0]
def lam0 : Fin 2 → ℚ := ![-1/3, 4/3]

def A1 : Matrix (Fin 1) (Fin 2) ℚ := !![3, 4]
def r1 : Matrix (Fin 2) (Fin 1) ℚ := !![5; 0]
def c1 : Fin 2 → ℚ := ![1, 0]
def b1 : Fin 1 → ℚ := ![0]
def xs1 : Fin 2 → ℚ := ![0, 0]
def xg1 : Fin 1 → ℚ := ![4/5]
def x1 : Fin 2 → ℚ := ![-16/25, 12/25]
def lam1 : Fin 1 → ℚ := ![-3/25]

def xs2 : Fin 2 → ℚ := ![0, 0]
def x2 : Fin 2 → ℚ := ![0, 0]
def lam2 : Fin 1 → ℚ := ![-3/25]

def q0n : Matrix (Fin 2) (Fin 2) ℚ := !![-3/5, 4/5; -4/5, -3/5]
def r1n : Matrix (Fin 2) (Fin 1) ℚ := !![-5; 0]
def xg1n : Fin 1 → ℚ := ![-4/5]

def A5 : Matrix (Fin 1) (Fin 1) ℚ := !![1]
def q5 : Matrix (Fin 1) (Fin 1) ℚ := !![1]
def r5 : Matrix (Fin 1) (Fin 1) ℚ := !![1]
def B5 : Matrix (Fin 1) (Fin 1) ℚ := !![2]
def c5 : Fin 1 → ℚ := ![3]
def b5 : Fin 1 → ℚ := ![-5]
def x5 : Fin 1 → ℚ := ![5]
def lam5 : Fin 1 → ℚ := ![-13]
def xl5 : Fin 1 ⊕ Fin 1 → ℚ := Sum.elim ![5] ![-13]

end QPSolve

/-!
## Lemmas and theorems
-/

namespace NewtonOpt

/-- Once `t` has dropped (strictly) below the `0.1` floor, the guard's second
disjunct holds forever (each pass multiplies a positive `t` by `4/5`), so the
loop never exits, whatever the objective is. -/
lemma armijoLS_none_below_floor {d : ℕ} (fs : Vec d → ℚ) (x dx gradf : Vec d) :
    ∀ (fuel : ℕ) (t : ℚ), 0 < t → t < 1/10 →
      armijoLS fs x dx gradf fuel t = none := by
  intro fuel
  induction fuel with
  | zero => intro t _ _; rfl
  | succ n ih =>
    intro t ht hfloor
    have hg : armijoGuard fs x dx gradf t := Or.inr hfloor
    have ht' : 0 < (4/5 : ℚ) * t := by positivity
    have hfloor' : (4/5 : ℚ) * t < 1/10 := by nlinarith
    simp only [armijoLS, if_pos hg]
    exact ih ((4/5) * t) ht' hfloor'

/-- At a stationary iterate the computed step is `dx = 0`, and then the Armijo
test `fs(x + t·0) ≥ fs(x) + γ·t·(g·0)` degenerates to `fs(x) ≥ fs(x)`, which is
true for every `t`: the loop never exits, at any starting `t`. -/
lemma armijoLS_none_zero_step {d : ℕ} (fs : Vec d → ℚ) (x gradf : Vec d) :
    ∀ (fuel : ℕ) (t : ℚ), armijoLS fs x 0 gradf fuel t = none := by
  intro fuel
  induction fuel with
  | zero => intro t; rfl
  | succ n ih =>
    intro t
    have hg : armijoGuard fs x 0 gradf t := by
      left
      simp [dot, smul_zero]
    simp only [armijoLS, if_pos hg]
    exact ih ((4/5) * t)

/-- **C1.** The claim states that the Armijo backtracking loop always
terminates, stopping either when the sufficient-decrease test succeeds or
"once `t` drops below the 0.1 floor even if the Armijo test still fails".
The code does the opposite: `t < 0.1` is part of the *continuation* condition
of the `while` loop (`while ... or t < 0.1`), so once `t` falls below the
floor the loop can never exit again (first conjunct below), and at any input
whose Armijo test keeps failing — e.g. a stationary iterate, where `dx = 0` —
the loop runs forever (second conjunct: the embedded loop returns `none` for
every fuel bound).  The spec describes the intended cap on backtracking
depth; the code as written is an unbounded loop. -/
theorem c1_armijo_backtracking_nonterminating
    {d : ℕ} (fs : Vec d → ℚ) (x dx gradf : Vec d) (fuel : ℕ) (t : ℚ)
    (ht : 0 < t) (hfloor : t < 1/10) :
    armijoLS fs x dx gradf fuel t = none ∧
    armijoLS fs x 0 gradf fuel 1 = none := by
  constructor
  · exact armijoLS_none_below_floor fs x dx gradf fuel t ht hfloor
  · exact armijoLS_none_zero_step fs x gradf fuel 1

/-- Concrete instance of C1: with the one-dimensional objective
`fs v = v₀ * v₀`, at `x = 0` with `dx = 0`, `gradf = 0`, fuel `7`, and with
`t = 1/20` below the floor, the loop exits in neither scenario. -/
theorem c1_armijo_backtracking_nonterminating_witness :
    armijoLS (fun v : Vec 1 => v 0 * v 0) 0 ![1] ![1] 7 (1/20) = none ∧
    armijoLS (fun v : Vec 1 => v 0 * v 0) 0 0 ![1] 7 1 = none :=
  c1_armijo_backtracking_nonterminating (fun v : Vec 1 => v 0 * v 0)
    0 ![1] ![1] 7 (1/20) (by norm_num) (by norm_num)

/-- Invariant of `optLoop`: whenever the loop returns a result, (a) at least
one full iteration beyond the entry counter was performed, (b) the exit
condition holds for the final step and counter, (c) the warning flag is set
exactly when the iteration budget was exceeded, (d) the counter never passes
`maxIt + 1` when entered with `i ≤ maxIt`, and (e) if the loop exited on its
very first iteration, the returned iterate is the entry iterate plus the first
step. -/
lemma optLoop_inv {d : ℕ} (step : Vec d → Vec d) (eps : ℚ) (maxIt : ℕ) :
    ∀ (fuel : ℕ) (x : Vec d) (i : ℕ) (r : OptResult d),
      optLoop step eps maxIt fuel x i = some r →
      i + 1 ≤ r.iters ∧
      stopCond r.lastdx eps maxIt r.iters ∧
      (r.warned = true ↔ maxIt < r.iters) ∧
      r.iters ≤ max (maxIt + 1) (i + 1) ∧
      (r.iters = i + 1 → r.x = x + step x ∧ r.lastdx = step x) := by
  intro fuel
  induction fuel with
  | zero => intro x i r h; exact absurd h (by simp [optLoop])
  | succ n ih =>
    intro x i r h
    rw [optLoop] at h
    by_cases hstop : stopCond (step x) eps maxIt (i + 1)
    · rw [if_pos hstop] at h
      have hr : r = ⟨x + step x, i + 1, decide (maxIt < i + 1), step x⟩ :=
        (Option.some_injective _ h).symm
      subst hr
      refine ⟨le_refl _, hstop, by simp, le_max_right _ _, fun _ => ⟨rfl, rfl⟩⟩
    · rw [if_neg hstop] at h
      obtain ⟨h1, h2, h3, h4, _⟩ := ih (x + step x) (i + 1) r h
      have hib : ¬ maxIt < i + 1 := fun hc => hstop (Or.inr hc)
      refine ⟨by omega, h2, h3, ?_, fun hiter => absurd hiter (by omega)⟩
      have : i + 1 + 1 ≤ maxIt + 1 := by omega
      omega

/-- Totality of `optLoop`: with fuel at least `maxIt + 1 - i` (and at least 1)
the loop always returns, because the counter increases every pass and the exit
test fires as soon as it exceeds `maxIt`. -/
lemma optLoop_total {d : ℕ} (step : Vec d → Vec d) (eps : ℚ) (maxIt : ℕ) :
    ∀ (fuel : ℕ) (x : Vec d) (i : ℕ), maxIt < i + fuel → 1 ≤ fuel →
      ∃ r, optLoop step eps maxIt fuel x i = some r := by
  intro fuel
  induction fuel with
  | zero => intro x i _ h1; exact absurd h1 (by omega)
  | succ n ih =>
    intro x i hbound _
    rw [optLoop]
    by_cases hstop : stopCond (step x) eps maxIt (i + 1)
    · exact ⟨_, by rw [if_pos hstop]⟩
    · have hib : ¬ maxIt < i + 1 := fun hc => hstop (Or.inr hc)
      have hn : 1 ≤ n := by omega
      obtain ⟨r, hr⟩ := ih (x + step x) (i + 1) (by omega) hn
      exact ⟨r, by rw [if_neg hstop]; exact hr⟩

/-- `pinvScalarId` really is the Moore–Penrose pseudoinverse of `c • 1`. -/
lemma pinvScalarId_isPseudoinverse (d : ℕ) (c : ℚ) :
    IsPseudoinverse (c • (1 : Mat d)) (pinvScalarId d c) := by
  unfold IsPseudoinverse pinvScalarId
  by_cases hc : c = 0
  · subst hc
    simp
  · rw [if_neg hc]
    have h1 : (c • (1 : Mat d)) * (c⁻¹ • 1) = 1 := by
      rw [Matrix.smul_mul, Matrix.mul_smul, one_mul, smul_smul,
        mul_inv_cancel₀ hc, one_smul]
    have h2 : (c⁻¹ • (1 : Mat d)) * (c • 1) = 1 := by
      rw [Matrix.smul_mul, Matrix.mul_smul, one_mul, smul_smul,
        inv_mul_cancel₀ hc, one_smul]
    refine ⟨?_, ?_, ?_, ?_⟩
    · rw [h1, one_mul]
    · rw [h2, one_mul]
    · rw [h1, Matrix.transpose_one]
    · rw [h2, Matrix.transpose_one]

/-- **C9.** For `GD` with `alpha ≠ 0` (line search disabled), the computed
step equals fixed-step gradient descent: the matrix the code inverts is
`B = (1/alpha) • 1`, `pinvScalarId` is its Moore–Penrose pseudoinverse, and
the step `dx = -pinv(B) · g` equals `-alpha • g` exactly, for every gradient
vector `g`. -/
theorem c9_gd_step_is_fixed_step {d : ℕ} (alpha : ℚ) (halpha : alpha ≠ 0) :
    IsPseudoinverse (alpha⁻¹ • (1 : Mat d)) (pinvScalarId d alpha⁻¹) ∧
    ∀ g : Vec d, gdStep alpha g = -(alpha • g) := by
  refine ⟨pinvScalarId_isPseudoinverse d alpha⁻¹, fun g => ?_⟩
  unfold gdStep pinvScalarId
  rw [if_neg (inv_ne_zero halpha), inv_inv,
    Matrix.smul_mulVec_assoc, Matrix.one_mulVec]

/-- Concrete instance of C9: `alpha = 2`, dimension 2. -/
theorem c9_gd_step_is_fixed_step_witness :
    IsPseudoinverse ((2 : ℚ)⁻¹ • (1 : Mat 2)) (pinvScalarId 2 (2 : ℚ)⁻¹) ∧
    ∀ g : Vec 2, gdStep 2 g = -((2 : ℚ) • g) :=
  c9_gd_step_is_fixed_step 2 (by norm_num)

/-- **C8, counterexample.**  The claim says *every* run of `optimize`
terminates and returns via the `‖dx‖ < eps` / `i > max_it` test.  Not so: a
globalized (`global_ = True`) GD run started at a stationary point — here
`fs(v) = v₀²`, gradient `v ↦ 2•v`, `x0 = 0`, `alpha = 1`, `eps = 1/2`,
`max_it = 5` — computes `dx = 0` on the first iteration, and the inner Armijo
loop then never exits (claim C1's bug), so `optimize` never returns: the
embedded run yields `none` for every outer and inner fuel bound. -/
theorem c8_counterexample_globalized_run_never_returns :
    ¬ ∃ (fuel lsFuel : ℕ) (r : OptResult 1),
        optLoopG (fun v => (2 : ℚ) • v) (fun v => v 0 * v 0) 1 (1/2) 5 lsFuel
          fuel 0 0 = some r := by
  rintro ⟨fuel, lsFuel, r, hr⟩
  have hdx0 : gdStep 1 ((2 : ℚ) • (0 : Vec 1)) = 0 := by
    unfold gdStep
    rw [smul_zero, Matrix.mulVec_zero, neg_zero]
  cases fuel with
  | zero => exact absurd hr (by simp [optLoopG])
  | succ n =>
    rw [optLoopG] at hr
    simp only [hdx0] at hr
    rw [armijoLS_none_zero_step] at hr
    exact absurd hr (by simp)

/-- **C8, amended.**  For every run of `optimize` in which each iteration
produces a step (in particular every `global_ = False` run; with the line
search enabled the inner loop can hang, see the counterexample), the loop
terminates — fuel `max_it + 1` always suffices — and returns the current
(post-update) iterate exactly when `‖dx‖ < eps` or the iteration counter
exceeds `max_it`; the max-iteration warning is reported iff the counter
exceeded the budget (the code prints a warning and still returns the last
iterate; it never raises), and the counter stays within `max_it + 1`. -/
theorem c8_amended_exit_conditions {d : ℕ} (step : Vec d → Vec d) (eps : ℚ)
    (maxIt : ℕ) (x0 : Vec d) :
    ∃ r : OptResult d,
      optLoop step eps maxIt (maxIt + 1) x0 0 = some r ∧
      ((0 < eps ∧ sqNorm r.lastdx < eps * eps) ∨ maxIt < r.iters) ∧
      (r.warned = true ↔ maxIt < r.iters) ∧
      1 ≤ r.iters ∧ r.iters ≤ maxIt + 1 := by
  obtain ⟨r, hr⟩ :=
    optLoop_total step eps maxIt (maxIt + 1) x0 0 (by omega) (by omega)
  obtain ⟨h1, h2, h3, h4, _⟩ := optLoop_inv step eps maxIt (maxIt + 1) x0 0 r hr
  exact ⟨r, hr, h2, h3, h1, by omega⟩

/-- **C7.** The BFGS curvature matrix is symmetric at every iteration: the
initialization `1*tf.eye(m)` is symmetric, and the rank-2 update preserves
symmetry whenever the denominators `s'Bs` and `s'y` are nonzero (both added
terms are outer products `v vᵀ`, hence symmetric). -/
theorem c7_bfgs_update_preserves_symmetry {d : ℕ} (B : Mat d) (s y : Vec d)
    (hc1 : bfgsC1 B s ≠ 0) (hc2 : bfgsC2 s y ≠ 0) (hB : Bᵀ = B) :
    ((1 : Mat d)ᵀ = 1) ∧ (bfgsUpdate B s y)ᵀ = bfgsUpdate B s y := by
  refine ⟨Matrix.transpose_one, ?_⟩
  have houter : ∀ v : Vec d, (vecMulVec v v)ᵀ = vecMulVec v v := by
    intro v
    ext i j
    simp [Matrix.vecMulVec_apply, Matrix.transpose_apply, mul_comm]
  unfold bfgsUpdate
  rw [Matrix.transpose_add, Matrix.transpose_sub, Matrix.transpose_smul,
    Matrix.transpose_smul, houter, houter, hB]

/-- Concrete instance of C7: `d = 1`, `B = 1`, `s = y = (1)`; both
denominators are `1 ≠ 0`. -/
theorem c7_bfgs_update_preserves_symmetry_witness :
    ((1 : Mat 1)ᵀ = 1) ∧
    (bfgsUpdate (1 : Mat 1) ![1] ![1])ᵀ = bfgsUpdate (1 : Mat 1) ![1] ![1] :=
  c7_bfgs_update_preserves_symmetry (1 : Mat 1) ![1] ![1]
    (by simp [bfgsC1, dot]) (by simp [bfgsC2, dot]) Matrix.transpose_one

/-- **C2, counterexample.**  The claim says a degenerate update
(`s'Bs = 0` or `s'y = 0`) makes the optimizer "fail explicitly with a
reported error … aborting with the best iterate so far".  Concretely run BFGS
on the objective with gradient `v ↦ 2•v` from the stationary start `x0 = 0`
(`d = 1`, `B0 = 1`, `eps = 1`, `max_it = 5`; the pseudoinverse oracle is only
evaluated at `B = 1`, where `pinv(1) = 1`): the first step is `dx = 0`, so
`s'Bs = 0` **and** `s'y = 0` — the spec-modelled checked update reports the
mandated error — yet the code performs the division unconditionally and the
run returns a *normal, unwarned success* result, never any error. -/
theorem c2_counterexample_degenerate_update_not_reported :
    bfgsC1 (1 : Mat 1) 0 = 0 ∧
    bfgsC2 (0 : Vec 1) 0 = 0 ∧
    bfgsUpdateChecked (1 : Mat 1) 0 0 = none ∧
    bfgsLoop (fun v => (2 : ℚ) • v) (fun B => B) 1 5 1 0 1 0 =
      some ((⟨0, 1, false, 0⟩ : OptResult 1), 1) := by
  have hc1 : bfgsC1 (1 : Mat 1) 0 = 0 := by simp [bfgsC1, dot]
  have hc2 : bfgsC2 (0 : Vec 1) 0 = 0 := by simp [bfgsC2, dot]
  have hchk : bfgsUpdateChecked (1 : Mat 1) 0 0 = none := by
    unfold bfgsUpdateChecked
    rw [if_pos (Or.inl hc1)]
  refine ⟨hc1, hc2, hchk, ?_⟩
  have hupd : bfgsUpdate (1 : Mat 1) 0 0 = 1 := by
    unfold bfgsUpdate
    rw [hc1, hc2]
    simp
  norm_num [bfgsLoop, stopCond, sqNorm, hupd]

/-- **C2, amended.**  The code never checks the BFGS denominators: the update
is computed unconditionally (`bfgsUpdate` is the unconditional formula; in
the exact-arithmetic embedding a zero denominator contributes `0⁻¹ = 0`, so a
doubly-degenerate update silently leaves `B` unchanged, where IEEE floats
would silently propagate `inf`/`NaN`), no error is ever reported, and the
loop proceeds to its normal exit test. -/
theorem c2_amended_degenerate_update_is_silent {d : ℕ} (B : Mat d)
    (s y : Vec d) (hc1 : bfgsC1 B s = 0) (hc2 : bfgsC2 s y = 0) :
    bfgsUpdate B s y = B ∧ bfgsUpdateChecked B s y = none := by
  constructor
  · unfold bfgsUpdate
    rw [hc1, hc2]
    simp
  · unfold bfgsUpdateChecked
    rw [if_pos (Or.inl hc1)]

/-- Concrete instance of the amended C2: `d = 1`, `B = 1`, `s = y = 0`. -/
theorem c2_amended_degenerate_update_is_silent_witness :
    bfgsUpdate (1 : Mat 1) 0 0 = 1 ∧ bfgsUpdateChecked (1 : Mat 1) 0 0 = none :=
  c2_amended_degenerate_update_is_silent (1 : Mat 1) 0 0
    (by simp [bfgsC1, dot]) (by simp [bfgsC2, dot])

lemma gdOscStep_eval (x : Vec 1) : gdOscStep x = fun _ => 1 - 2 * x 0 := by
  funext i
  simp [gdOscStep, gdOscGrad, gdStep, pinvScalarId, Matrix.smul_mulVec_assoc,
    Matrix.one_mulVec]

/-- **C10, counterexample.**  The claim's final part — "the returned iterate
differs from `x0` whenever the first computed step `dx` is nonzero" — is
false.  GD on `fs(v) = (v₀ - 1/2)²` with `alpha = 1` oscillates
`0 → 1 → 0 → …`: from `x0 = 0` with `eps = 1/2` and `max_it = 1` the loop
exits after the second iteration with the budget warning, returning the
iterate `0 = x0`, even though the first step was `1 ≠ 0`. -/
theorem c10_counterexample_returned_iterate_equals_x0 :
    optLoop gdOscStep (1/2) 1 2 (0 : Vec 1) 0 =
      some ⟨0, 2, true, fun _ => -1⟩ ∧
    gdOscStep 0 ≠ 0 ∧
    (some (⟨0, 2, true, fun _ => -1⟩ : OptResult 1)).map OptResult.x =
      some (0 : Vec 1) := by
  refine ⟨?_, ?_, rfl⟩
  · norm_num [optLoop, stopCond, sqNorm, gdOscStep_eval]
    all_goals funext i
    all_goals norm_num
  · rw [gdOscStep_eval]
    intro h
    have := congrFun h 0
    norm_num at this

/-- **C10, amended.**  For every method (any per-iteration step function) and
every initial point, `optimize` performs at least one full iteration before
testing any termination condition — the returned iteration count is at least
1 — and *when the loop exits on that first iteration* the returned iterate is
`x0 + dx`, which differs from `x0` whenever that first step is nonzero.  (On
later exits the iterate can return to `x0`, as the counterexample shows.) -/
theorem c10_amended_first_iteration_before_test {d : ℕ}
    (step : Vec d → Vec d) (eps : ℚ) (maxIt fuel : ℕ) (x0 : Vec d)
    (r : OptResult d) (h : optLoop step eps maxIt fuel x0 0 = some r) :
    1 ≤ r.iters ∧ (r.iters = 1 → step x0 ≠ 0 → r.x ≠ x0) := by
  obtain ⟨h1, _, _, _, h5⟩ := optLoop_inv step eps maxIt fuel x0 0 r h
  refine ⟨h1, fun hiter hstep hx => ?_⟩
  obtain ⟨hx', _⟩ := h5 hiter
  rw [hx] at hx'
  exact hstep (add_right_eq_self.mp hx'.symm)

/-- Concrete instance of the amended C10: constant step `1`, `eps = 1`,
`max_it = 0`, one unit of fuel, starting at `0`; the run exits on iteration 1
with iterate `1 ≠ 0`. -/
theorem c10_amended_first_iteration_before_test_witness :
    1 ≤ (⟨fun _ => (1 : ℚ), 1, true, fun _ => (1 : ℚ)⟩ : OptResult 1).iters ∧
    ((⟨fun _ => (1 : ℚ), 1, true, fun _ => (1 : ℚ)⟩ : OptResult 1).iters = 1 →
      (fun _ : Vec 1 => (fun _ : Fin 1 => (1 : ℚ))) (0 : Vec 1) ≠ 0 →
      (⟨fun _ => (1 : ℚ), 1, true, fun _ => (1 : ℚ)⟩ : OptResult 1).x ≠ 0) :=
  c10_amended_first_iteration_before_test
    (fun _ : Vec 1 => (fun _ : Fin 1 => (1 : ℚ))) 1 0 1 (0 : Vec 1)
    ⟨fun _ => (1 : ℚ), 1, true, fun _ => (1 : ℚ)⟩
    (by norm_num [optLoop, stopCond, sqNorm])

end NewtonOpt

namespace QPSolve

/-- Splitting a sum over `Fin k` at position `g`. -/
lemma sum_split {k : ℕ} (g : ℕ) (hg : g ≤ k) (f : Fin k → ℚ) :
    ∑ i, f i = (∑ i : Fin g, f ⟨i.1, by have := i.isLt; omega⟩) +
      ∑ j : Fin (k - g), f ⟨g + j.1, by have := j.isLt; omega⟩ := by
  classical
  let e : Fin g ⊕ Fin (k - g) → Fin k :=
    Sum.elim (fun i => ⟨i.1, by have := i.isLt; omega⟩)
      (fun j => ⟨g + j.1, by have := j.isLt; omega⟩)
  have hbij : Function.Bijective e := by
    constructor
    · rintro (a | a) (b | b) hab
      · have h1 : a.1 = b.1 := by simpa [e, Fin.ext_iff] using hab
        exact congrArg Sum.inl (Fin.ext h1)
      · have h1 : a.1 = g + b.1 := by simpa [e, Fin.ext_iff] using hab
        exact absurd h1 (by have := a.isLt; omega)
      · have h1 : g + a.1 = b.1 := by simpa [e, Fin.ext_iff] using hab
        exact absurd h1 (by have := b.isLt; omega)
      · have h1 : a.1 = b.1 := by simpa [e, Fin.ext_iff] using hab
        exact congrArg Sum.inr (Fin.ext h1)
    · intro t
      by_cases ht : t.1 < g
      · exact ⟨Sum.inl ⟨t.1, ht⟩, by simp [e]⟩
      · refine ⟨Sum.inr ⟨t.1 - g, by have := t.isLt; omega⟩, ?_⟩
        simp only [e, Sum.elim_inr]
        exact Fin.ext (by simp; omega)
  have h2 := Fintype.sum_bijective e hbij (fun s => f (e s)) f (fun s => rfl)
  rw [← h2, Fintype.sum_sum_type]
  rfl

/-- Entry form of orthogonality `qᵀq = 1`: columns are orthonormal. -/
lemma orth_entry {n : ℕ} {q : Matrix (Fin n) (Fin n) ℚ} (hq : qᵀ * q = 1)
    (i j : Fin n) : ∑ k, q k i * q k j = if i = j then 1 else 0 := by
  have h1 := congrFun (congrFun hq i) j
  simpa [Matrix.mul_apply, Matrix.transpose_apply, Matrix.one_apply] using h1

/-- Entry form of `q qᵀ = 1` (rows orthonormal; holds for square orthogonal
matrices). -/
lemma orth_entry_rows {n : ℕ} {q : Matrix (Fin n) (Fin n) ℚ} (hq : qᵀ * q = 1)
    (i j : Fin n) : ∑ k, q i k * q j k = if i = j then 1 else 0 := by
  have hq' : q * qᵀ = 1 := Matrix.mul_eq_one_comm.mp hq
  have h1 := congrFun (congrFun hq' i) j
  simpa [Matrix.mul_apply, Matrix.transpose_apply, Matrix.one_apply] using h1

lemma ZtY_zero {n : ℕ} {q : Matrix (Fin n) (Fin n) ℚ} (hq : qᵀ * q = 1)
    (g : ℕ) (hg : g ≤ n) : (nsZ q g hg)ᵀ * nsY q g hg = 0 := by
  ext i j
  have h1 := orth_entry hq ⟨g + i.1, by have := i.isLt; omega⟩
    ⟨j.1, by have := j.isLt; omega⟩
  simp only [Matrix.mul_apply, Matrix.transpose_apply, nsZ, nsY,
    sliceColsFrom, sliceColsTo]
  rw [h1, if_neg (by simp [Fin.ext_iff]; have := j.isLt; omega)]
  rfl

/-- `Y Yᵀ + Z Zᵀ = 1`: the two slices of an orthogonal `q` resolve the
identity. -/
lemma YYt_add_ZZt {n : ℕ} {q : Matrix (Fin n) (Fin n) ℚ} (hq : qᵀ * q = 1)
    (g : ℕ) (hg : g ≤ n) :
    nsY q g hg * (nsY q g hg)ᵀ + nsZ q g hg * (nsZ q g hg)ᵀ = 1 := by
  ext i j
  have h1 := orth_entry_rows hq i j
  rw [sum_split g hg (fun k => q i k * q j k)] at h1
  simp only [Matrix.add_apply, Matrix.mul_apply, Matrix.transpose_apply,
    nsY, nsZ, sliceColsTo, sliceColsFrom, Matrix.one_apply]
  rw [h1]

/-- With `m ≤ g`, the bottom `n - g` rows of the upper-triangular `r` vanish
on all `m` columns, so `Aᵀ = q r` collapses to the sliced product `Y · Rp`. -/
lemma A_transpose_eq_Y_Rp {n m : ℕ} {A : Matrix (Fin m) (Fin n) ℚ}
    {q : Matrix (Fin n) (Fin n) ℚ} {r : Matrix (Fin n) (Fin m) ℚ}
    (hqr : IsCompleteQR Aᵀ q r) (g : ℕ) (hg : g ≤ n) (hmg : m ≤ g) :
    Aᵀ = nsY q g hg * nsRp r g hg := by
  obtain ⟨hq, htri, hM⟩ := hqr
  ext i j
  rw [hM]
  simp only [Matrix.mul_apply, nsY, nsRp, sliceColsTo, sliceRowsTo]
  rw [sum_split g hg (fun k => q i k * r k j)]
  have hzero : ∑ l : Fin (n - g), q i ⟨g + l.1, by have := l.isLt; omega⟩ *
      r ⟨g + l.1, by have := l.isLt; omega⟩ j = 0 := by
    refine Finset.sum_eq_zero fun l _ => ?_
    rw [htri ⟨g + l.1, by have := l.isLt; omega⟩ j
      (show (j : ℕ) < g + l.1 by have := j.isLt; omega), mul_zero]
  rw [hzero, add_zero]

/-- `A Z = 0`: the columns of `Z` span directions annihilated by `A`. -/
lemma A_mul_Z_zero {n m : ℕ} {A : Matrix (Fin m) (Fin n) ℚ}
    {q : Matrix (Fin n) (Fin n) ℚ} {r : Matrix (Fin n) (Fin m) ℚ}
    (hqr : IsCompleteQR Aᵀ q r) (g : ℕ) (hg : g ≤ n) (hmg : m ≤ g) :
    A * nsZ q g hg = 0 := by
  obtain ⟨hq, htri, hM⟩ := hqr
  ext i j
  have hAik : ∀ k, A i k = ∑ l, q k l * r l i := by
    intro k
    have h1 : Aᵀ k i = (q * r) k i := by rw [hM]
    simpa [Matrix.transpose_apply, Matrix.mul_apply] using h1
  simp only [Matrix.mul_apply, nsZ, sliceColsFrom, Matrix.zero_apply]
  calc ∑ k, A i k * q k ⟨g + j.1, by have := j.isLt; omega⟩
      = ∑ k, ∑ l, r l i * (q k l * q k ⟨g + j.1, by have := j.isLt; omega⟩) := by
        refine Finset.sum_congr rfl fun k _ => ?_
        rw [hAik k, Finset.sum_mul]
        refine Finset.sum_congr rfl fun l _ => by ring
    _ = ∑ l, r l i * ∑ k, q k l * q k ⟨g + j.1, by have := j.isLt; omega⟩ := by
        rw [Finset.sum_comm]
        refine Finset.sum_congr rfl fun l _ => by rw [Finset.mul_sum]
    _ = 0 := by
        refine Finset.sum_eq_zero fun l _ => ?_
        rw [orth_entry hq]
        by_cases hl : l = ⟨g + j.1, by have := j.isLt; omega⟩
        · subst hl
          rw [htri _ i (show (i : ℕ) < g + j.1 by have := i.isLt; omega),
            zero_mul]
        · rw [if_neg hl, mul_zero]

/-- A map with trivial kernel is injective (`mulVec` is linear). -/
lemma mulVec_injective_of_ker {α β : Type} [Fintype α] [Fintype β]
    (M : Matrix α β ℚ) (h : ∀ w, M.mulVec w = 0 → w = 0) :
    Function.Injective M.mulVec := by
  intro u v huv
  have h1 : M.mulVec (u - v) = 0 := by
    rw [Matrix.mulVec_sub, huv, sub_self]
  have h2 := h (u - v) h1
  exact sub_eq_zero.mp h2

/-- Conversely, injectivity gives a trivial kernel. -/
lemma ker_of_mulVec_injective {α β : Type} [Fintype α] [Fintype β]
    (M : Matrix α β ℚ) (h : Function.Injective M.mulVec) :
    ∀ w, M.mulVec w = 0 → w = 0 := by
  intro w hw
  apply h
  rw [hw, Matrix.mulVec_zero]

/-- A square matrix over `ℚ` with trivial kernel has invertible
determinant. -/
lemma isUnit_det_of_ker {α : Type} [Fintype α] [DecidableEq α]
    (M : Matrix α α ℚ) (h : ∀ w, M.mulVec w = 0 → w = 0) : IsUnit M.det := by
  rw [isUnit_iff_ne_zero]
  intro hdet
  obtain ⟨v, hv, hv0⟩ := (Matrix.exists_mulVec_eq_zero_iff).mpr hdet
  exact hv (h v hv0)

/-- A square matrix with invertible determinant has trivial kernel. -/
lemma ker_of_isUnit_det {α : Type} [Fintype α] [DecidableEq α]
    (M : Matrix α α ℚ) (h : IsUnit M.det) :
    ∀ w, M.mulVec w = 0 → w = 0 := by
  intro w hw
  have h1 : M⁻¹ * M = 1 := Matrix.nonsing_inv_mul M h
  calc w = (M⁻¹ * M).mulVec w := by rw [h1, Matrix.one_mulVec]
    _ = M⁻¹.mulVec (M.mulVec w) := (Matrix.mulVec_mulVec w M⁻¹ M).symm
    _ = 0 := by rw [hw, Matrix.mulVec_zero]

/-- A positive definite matrix has trivial kernel. -/
lemma ker_of_MPosDef {k : ℕ} (M : Matrix (Fin k) (Fin k) ℚ)
    (h : MPosDef M) : ∀ w, M.mulVec w = 0 → w = 0 := by
  intro w hw
  by_contra hw0
  have h1 := h w hw0
  rw [hw] at h1
  simp [Matrix.dotProduct_zero] at h1

/-- When `Mᵀ` has trivial kernel, a least-squares solution is an exact
solution. -/
lemma lstsq_exact {α β : Type} [Fintype α] [Fintype β]
    (M : Matrix α β ℚ) (v : α → ℚ) (x : β → ℚ) (h : IsLstsq M v x)
    (hker : ∀ w, Mᵀ.mulVec w = 0 → w = 0) : M.mulVec x = v := by
  have h1 := hker _ h
  exact sub_eq_zero.mp h1

/-- With `A` of full row rank and the consistent slice `g = m`, the
triangular factor `Rp` has trivial kernel (hence invertible determinant). -/
lemma rp_ker {n m : ℕ} {A : Matrix (Fin m) (Fin n) ℚ}
    {q : Matrix (Fin n) (Fin n) ℚ} {r : Matrix (Fin n) (Fin m) ℚ}
    (hqr : IsCompleteQR Aᵀ q r) (hm : m ≤ n) (hA : FullRowRank A) :
    ∀ w, (nsRp r m hm).mulVec w = 0 → w = 0 := by
  intro w hw
  have hAY := A_transpose_eq_Y_Rp hqr m hm le_rfl
  have h1 : Aᵀ.mulVec w = 0 := by
    rw [hAY, ← Matrix.mulVec_mulVec, hw, Matrix.mulVec_zero]
  exact ker_of_mulVec_injective Aᵀ hA w h1

/-- Core of the null-space correctness argument: a null-space run with
`g = m`, full-row-rank `A` and nonsingular reduced Hessian produces a
KKT point: `A x = -b` and `B x + Aᵀ λ = -c`. -/
lemma nullrun_kkt {n m : ℕ} {hg : m ≤ n}
    {B : Matrix (Fin n) (Fin n) ℚ} {c : Fin n → ℚ}
    {A : Matrix (Fin m) (Fin n) ℚ} {b : Fin m → ℚ}
    {q : Matrix (Fin n) (Fin n) ℚ} {r : Matrix (Fin n) (Fin m) ℚ}
    {xs : Fin n → ℚ} {xg : Fin (n - m) → ℚ}
    {x : Fin n → ℚ} {lam : Fin m → ℚ}
    (hrun : QPNullRun m hg B c A b q r xs xg x lam)
    (hA : FullRowRank A)
    (ha : ∀ w, ((nsZ q m hg)ᵀ * B * nsZ q m hg).mulVec w = 0 → w = 0) :
    A.mulVec x = -b ∧ B.mulVec x + Aᵀ.mulVec lam = -c := by
  obtain ⟨hqr, hxs, hxg, hx, hlam⟩ := hrun
  have hq := hqr.1
  have hxs' : A.mulVec xs = -b :=
    lstsq_exact A (-b) xs hxs (ker_of_mulVec_injective Aᵀ hA)
  have hAZ := A_mul_Z_zero hqr m hg le_rfl
  have hax : A.mulVec x = -b := by
    rw [hx, Matrix.mulVec_add, Matrix.mulVec_mulVec, hAZ, Matrix.zero_mulVec,
      zero_add, hxs']
  have haunit : IsUnit ((nsZ q m hg)ᵀ * B * nsZ q m hg).det :=
    isUnit_det_of_ker _ ha
  have hat : ∀ w, ((nsZ q m hg)ᵀ * B * nsZ q m hg)ᵀ.mulVec w = 0 → w = 0 :=
    ker_of_isUnit_det _ (by rw [Matrix.det_transpose]; exact haunit)
  have hxg' := lstsq_exact _ _ xg hxg hat
  have hZtv : (nsZ q m hg)ᵀ.mulVec (B.mulVec x + c) = 0 := by
    calc (nsZ q m hg)ᵀ.mulVec (B.mulVec x + c)
        = ((nsZ q m hg)ᵀ * B * nsZ q m hg).mulVec xg +
            (((nsZ q m hg)ᵀ * B).mulVec xs + (nsZ q m hg)ᵀ.mulVec c) := by
          rw [hx]
          simp only [Matrix.mulVec_add, Matrix.mulVec_mulVec,
            ← Matrix.mul_assoc]
          abel
      _ = 0 := by rw [hxg']; abel
  have hv : B.mulVec x + c =
      (nsY q m hg).mulVec ((nsY q m hg)ᵀ.mulVec (B.mulVec x + c)) := by
    calc B.mulVec x + c
        = (1 : Matrix (Fin n) (Fin n) ℚ).mulVec (B.mulVec x + c) :=
          (Matrix.one_mulVec _).symm
      _ = (nsY q m hg * (nsY q m hg)ᵀ +
            nsZ q m hg * (nsZ q m hg)ᵀ).mulVec (B.mulVec x + c) := by
          rw [YYt_add_ZZt hq m hg]
      _ = (nsY q m hg).mulVec ((nsY q m hg)ᵀ.mulVec (B.mulVec x + c)) +
            (nsZ q m hg).mulVec ((nsZ q m hg)ᵀ.mulVec (B.mulVec x + c)) := by
          rw [Matrix.add_mulVec, Matrix.mulVec_mulVec, Matrix.mulVec_mulVec]
      _ = _ := by rw [hZtv, Matrix.mulVec_zero, add_zero]
  have hrpunit : IsUnit (nsRp r m hg).det :=
    isUnit_det_of_ker _ (rp_ker hqr hg hA)
  have hrpt : ∀ w, (nsRp r m hg)ᵀ.mulVec w = 0 → w = 0 :=
    ker_of_isUnit_det _ (by rw [Matrix.det_transpose]; exact hrpunit)
  have hlam' := lstsq_exact _ _ lam hlam hrpt
  have hAY := A_transpose_eq_Y_Rp hqr m hg le_rfl
  have h2 : Aᵀ.mulVec lam = -(B.mulVec x + c) := by
    rw [hAY, ← Matrix.mulVec_mulVec, hlam', Matrix.mulVec_neg, ← hv]
  refine ⟨hax, ?_⟩
  rw [h2]
  abel

/-- Uniqueness core for the KKT system: with full-row-rank `A` and
nonsingular reduced Hessian, the homogeneous system
`B u + Aᵀ w = 0, A u = 0` has only the trivial solution. -/
lemma kkt_homogeneous {n m : ℕ} {hg : m ≤ n}
    {B : Matrix (Fin n) (Fin n) ℚ}
    {A : Matrix (Fin m) (Fin n) ℚ}
    {q : Matrix (Fin n) (Fin n) ℚ} {r : Matrix (Fin n) (Fin m) ℚ}
    (hqr : IsCompleteQR Aᵀ q r) (hA : FullRowRank A)
    (ha : ∀ w, ((nsZ q m hg)ᵀ * B * nsZ q m hg).mulVec w = 0 → w = 0) :
    ∀ (u : Fin n → ℚ) (w : Fin m → ℚ),
      B.mulVec u + Aᵀ.mulVec w = 0 → A.mulVec u = 0 → u = 0 ∧ w = 0 := by
  intro u w h1 h2
  have hq := hqr.1
  have hAY := A_transpose_eq_Y_Rp hqr m hg le_rfl
  have hrpt : ∀ v, (nsRp r m hg)ᵀ.mulVec v = 0 → v = 0 :=
    ker_of_isUnit_det _
      (by rw [Matrix.det_transpose]
          exact isUnit_det_of_ker _ (rp_ker hqr hg hA))
  have hAform : A = (nsRp r m hg)ᵀ * (nsY q m hg)ᵀ := by
    have := congrArg Matrix.transpose hAY
    rwa [Matrix.transpose_transpose, Matrix.transpose_mul] at this
  have hYu : (nsY q m hg)ᵀ.mulVec u = 0 := by
    apply hrpt
    rw [Matrix.mulVec_mulVec, ← hAform, h2]
  have hu : u = (nsZ q m hg).mulVec ((nsZ q m hg)ᵀ.mulVec u) := by
    calc u = (1 : Matrix (Fin n) (Fin n) ℚ).mulVec u :=
          (Matrix.one_mulVec _).symm
      _ = (nsY q m hg * (nsY q m hg)ᵀ +
            nsZ q m hg * (nsZ q m hg)ᵀ).mulVec u := by
          rw [YYt_add_ZZt hq m hg]
      _ = (nsY q m hg).mulVec ((nsY q m hg)ᵀ.mulVec u) +
            (nsZ q m hg).mulVec ((nsZ q m hg)ᵀ.mulVec u) := by
          rw [Matrix.add_mulVec, Matrix.mulVec_mulVec, Matrix.mulVec_mulVec]
      _ = _ := by rw [hYu, Matrix.mulVec_zero, zero_add]
  have hZBu : (nsZ q m hg)ᵀ.mulVec (B.mulVec u) = 0 := by
    have h3 : (nsZ q m hg)ᵀ.mulVec (B.mulVec u) +
        (nsZ q m hg)ᵀ.mulVec (Aᵀ.mulVec w) = 0 := by
      rw [← Matrix.mulVec_add, h1, Matrix.mulVec_zero]
    have h4 : (nsZ q m hg)ᵀ.mulVec (Aᵀ.mulVec w) = 0 := by
      rw [hAY, ← Matrix.mulVec_mulVec, Matrix.mulVec_mulVec]
      have h5 : (nsZ q m hg)ᵀ * nsY q m hg = 0 := ZtY_zero hq m hg
      rw [h5, Matrix.zero_mulVec]
    rw [h4, add_zero] at h3
    exact h3
  have hZu : (nsZ q m hg)ᵀ.mulVec u = 0 := by
    apply ha
    have h6 : ((nsZ q m hg)ᵀ * B * nsZ q m hg).mulVec
        ((nsZ q m hg)ᵀ.mulVec u) = (nsZ q m hg)ᵀ.mulVec (B.mulVec u) := by
      rw [← Matrix.mulVec_mulVec, ← Matrix.mulVec_mulVec, ← hu]
    rw [h6, hZBu]
  have hu0 : u = 0 := by rw [hu, hZu, Matrix.mulVec_zero]
  refine ⟨hu0, ?_⟩
  apply ker_of_mulVec_injective Aᵀ hA
  rw [hu0] at h1
  rw [Matrix.mulVec_zero, zero_add] at h1
  exact h1

/-- The KKT block matrix `[[B, Aᵀ], [A, 0]]` has trivial kernel under the
same hypotheses. -/
lemma kkt_fromBlocks_ker {n m : ℕ} {hg : m ≤ n}
    {B : Matrix (Fin n) (Fin n) ℚ}
    {A : Matrix (Fin m) (Fin n) ℚ}
    {q : Matrix (Fin n) (Fin n) ℚ} {r : Matrix (Fin n) (Fin m) ℚ}
    (hqr : IsCompleteQR Aᵀ q r) (hA : FullRowRank A)
    (ha : ∀ w, ((nsZ q m hg)ᵀ * B * nsZ q m hg).mulVec w = 0 → w = 0) :
    ∀ ul : Fin n ⊕ Fin m → ℚ,
      (Matrix.fromBlocks B Aᵀ A 0).mulVec ul = 0 → ul = 0 := by
  intro ul hul
  have hsplit : ul = Sum.elim (ul ∘ Sum.inl) (ul ∘ Sum.inr) :=
    (Sum.elim_comp_inl_inr ul).symm
  rw [hsplit, Matrix.fromBlocks_mulVec] at hul
  have h1 : B.mulVec (ul ∘ Sum.inl) + Aᵀ.mulVec (ul ∘ Sum.inr) = 0 := by
    funext i
    exact congrFun hul (Sum.inl i)
  have h2 : A.mulVec (ul ∘ Sum.inl) = 0 := by
    funext i
    have h3 := congrFun hul (Sum.inr i)
    simpa [Matrix.zero_mulVec] using h3
  obtain ⟨hu, hw⟩ := kkt_homogeneous hqr hA ha (ul ∘ Sum.inl) (ul ∘ Sum.inr)
    h1 h2
  rw [hsplit, hu, hw]
  funext s
  cases s <;> rfl

/-- The transposed KKT matrix also has trivial kernel (apply the previous
lemma to `Bᵀ`, whose reduced Hessian is the transpose of `B`'s). -/
lemma kkt_fromBlocks_transpose_ker {n m : ℕ} {hg : m ≤ n}
    {B : Matrix (Fin n) (Fin n) ℚ}
    {A : Matrix (Fin m) (Fin n) ℚ}
    {q : Matrix (Fin n) (Fin n) ℚ} {r : Matrix (Fin n) (Fin m) ℚ}
    (hqr : IsCompleteQR Aᵀ q r) (hA : FullRowRank A)
    (ha : ∀ w, ((nsZ q m hg)ᵀ * B * nsZ q m hg).mulVec w = 0 → w = 0) :
    ∀ ul : Fin n ⊕ Fin m → ℚ,
      (Matrix.fromBlocks B Aᵀ A 0)ᵀ.mulVec ul = 0 → ul = 0 := by
  have htr : (Matrix.fromBlocks B Aᵀ A (0 : Matrix (Fin m) (Fin m) ℚ))ᵀ =
      Matrix.fromBlocks Bᵀ Aᵀ A 0 := by
    rw [Matrix.fromBlocks_transpose, Matrix.transpose_transpose,
      Matrix.transpose_zero]
  rw [htr]
  have haT : ∀ w, ((nsZ q m hg)ᵀ * Bᵀ * nsZ q m hg).mulVec w = 0 → w = 0 := by
    have heq : (nsZ q m hg)ᵀ * Bᵀ * nsZ q m hg =
        ((nsZ q m hg)ᵀ * B * nsZ q m hg)ᵀ := by
      rw [Matrix.transpose_mul, Matrix.transpose_mul,
        Matrix.transpose_transpose, Matrix.mul_assoc]
    rw [heq]
    exact ker_of_isUnit_det _
      (by rw [Matrix.det_transpose]; exact isUnit_det_of_ker _ ha)
  exact kkt_fromBlocks_ker hqr hA haT

end QPSolve

namespace QPSolve

lemma h22 : (2 : ℕ) ≤ 2 := le_refl 2

lemma h12 : (1 : ℕ) ≤ 2 := by omega

lemma h11 : (1 : ℕ) ≤ 1 := le_refl 1

/-- `(q0, r0)` is a valid complete QR factorization of `A0ᵀ`. -/
lemma qr0 : IsCompleteQR A0ᵀ q0 r0 := by
  refine ⟨?_, ?_, ?_⟩
  · ext i j
    fin_cases i <;> fin_cases j <;>
      norm_num [Matrix.mul_apply, Fin.sum_univ_succ, q0,
        Matrix.transpose_apply, Matrix.one_apply]
  · intro i j hij
    fin_cases i <;> fin_cases j <;> simp_all [r0]
  · ext i j
    fin_cases i <;> fin_cases j <;>
      norm_num [Matrix.mul_apply, Fin.sum_univ_succ, q0, r0, A0,
        Matrix.transpose_apply]

/-- A complete, checked NullSpace run on the square instance `A0` with the
consistent ambient `gm = m = 2`. -/
lemma run0 : QPNullRun 2 h22 B0 c0 A0 b0 q0 r0 xs0 ![] x0 lam0 := by
  refine ⟨qr0, ?_, ?_, ?_, ?_⟩
  · have hz : A0.mulVec xs0 - (-b0) = 0 := by
      funext i
      fin_cases i <;>
        norm_num [Matrix.mulVec, Matrix.dotProduct, Fin.sum_univ_succ,
          A0, b0, xs0]
    rw [IsLstsq, hz, Matrix.mulVec_zero]
  · rw [IsLstsq]
    funext j
    exact j.elim0
  · funext i
    simp [Matrix.mulVec, Matrix.dotProduct, x0, xs0]
  · have hz : (nsRp r0 2 h22).mulVec lam0 -
        (-((nsY q0 2 h22)ᵀ.mulVec (B0.mulVec x0 + c0))) = 0 := by
      funext i
      fin_cases i <;>
        norm_num [Matrix.mulVec, Matrix.dotProduct, Fin.sum_univ_succ,
          nsRp, nsY, sliceRowsTo, sliceColsTo, r0, q0, B0, c0, x0, lam0,
          Matrix.transpose_apply, Matrix.vecHead, Matrix.vecTail,
          Function.comp]
    rw [IsLstsq, hz, Matrix.mulVec_zero]

/-- On the concrete run the transposed triangular system of claim C4 fails. -/
lemma c4_ineq : (nsRp r0 2 h22)ᵀ.mulVec lam0 ≠
    -((nsY q0 2 h22)ᵀ.mulVec (B0.mulVec x0 + c0)) := by
  intro h
  have h1 := congrFun h 0
  norm_num [Matrix.mulVec, Matrix.dotProduct, Fin.sum_univ_succ,
    nsRp, nsY, sliceRowsTo, sliceColsTo, r0, q0, B0, c0, x0, lam0,
    Matrix.transpose_apply, Matrix.vecHead, Matrix.vecTail,
    Function.comp] at h1

/-- `A0` has full row rank. -/
lemma frr_A0 : FullRowRank A0 := by
  intro u v huv
  have h0 := congrFun huv 0
  have h1 := congrFun huv 1
  norm_num [Matrix.mulVec, Matrix.dotProduct, Fin.sum_univ_succ, A0,
    Matrix.transpose_apply] at h0 h1
  funext i
  fin_cases i
  · simp; linarith
  · simp; linarith

/-- **C4, counterexample.**  The claim (and the spec formula) say the
returned multipliers satisfy `Rpᵀ · λ = -Yᵀ(Bx + c)`.  On the valid run
`run0` (square `A0`, full row rank, exact solves everywhere) this fails:
`Rpᵀ λ = (-5/3, 8/15)` while the right-hand side is `(-3/5, 4/5)`.  The code
actually solves against `Rp`, not `Rpᵀ`. -/
theorem c4_counterexample_transposed_system_fails : ¬ QPNullMultiplierSpec := by
  intro h
  exact c4_ineq (h 2 2 h22 B0 c0 A0 b0 q0 r0 xs0 ![] x0 lam0 run0)

/-- **C4, amended.**  In the NullSpace method (consistent ambient `gm = m`,
`A` of full row rank so that `Rp` is invertible and the least-squares solve
is exact), the returned multipliers satisfy the *untransposed* triangular
system `Rp · λ = -Yᵀ(Bx + c)`, where `Aᵀ = QR` is the complete QR
factorization, `Y` the first `m` columns of `Q`, `Rp` the top `m×m` block of
`R`, and `x` the returned primal solution.  (Without the rank hypothesis the
run still satisfies the normal equations `Rpᵀ(Rp λ + Yᵀ(Bx+c)) = 0`, which is
the `IsLstsq` conjunct of the run itself.) -/
theorem c4_amended_triangular_system_untransposed {n m : ℕ} (hg : m ≤ n)
    (B : Matrix (Fin n) (Fin n) ℚ) (c : Fin n → ℚ)
    (A : Matrix (Fin m) (Fin n) ℚ) (b : Fin m → ℚ)
    (q : Matrix (Fin n) (Fin n) ℚ) (r : Matrix (Fin n) (Fin m) ℚ)
    (xs : Fin n → ℚ) (xg : Fin (n - m) → ℚ) (x : Fin n → ℚ)
    (lam : Fin m → ℚ)
    (hrun : QPNullRun m hg B c A b q r xs xg x lam)
    (hA : FullRowRank A) :
    (nsRp r m hg).mulVec lam =
      -((nsY q m hg)ᵀ.mulVec (B.mulVec x + c)) := by
  obtain ⟨hqr, _, _, _, hlam⟩ := hrun
  have hrpt : ∀ w, (nsRp r m hg)ᵀ.mulVec w = 0 → w = 0 :=
    ker_of_isUnit_det _
      (by rw [Matrix.det_transpose]
          exact isUnit_det_of_ker _ (rp_ker hqr hg hA))
  exact lstsq_exact _ _ lam hlam hrpt

/-- Concrete instance of the amended C4, on the run `run0`. -/
theorem c4_amended_triangular_system_untransposed_witness :
    (nsRp r0 2 h22).mulVec lam0 =
      -((nsY q0 2 h22)ᵀ.mulVec (B0.mulVec x0 + c0)) :=
  c4_amended_triangular_system_untransposed h22 B0 c0 A0 b0 q0 r0 xs0 ![]
    x0 lam0 run0 frr_A0

/-- `(q0, r1)` is a valid complete QR factorization of `A1ᵀ`. -/
lemma qr1 : IsCompleteQR A1ᵀ q0 r1 := by
  refine ⟨?_, ?_, ?_⟩
  · ext i j
    fin_cases i <;> fin_cases j <;>
      norm_num [Matrix.mul_apply, Fin.sum_univ_succ, q0,
        Matrix.transpose_apply, Matrix.one_apply]
  · intro i j hij
    fin_cases i <;> fin_cases j <;> simp_all [r1]
  · ext i j
    fin_cases i <;> fin_cases j <;>
      norm_num [Matrix.mul_apply, Fin.sum_univ_succ, q0, r1, A1,
        Matrix.transpose_apply]

/-- A NullSpace run on `A1` with the *consistent* ambient `gm = 1`. -/
lemma run1 : QPNullRun 1 h12 B0 c1 A1 b1 q0 r1 xs1 xg1 x1 lam1 := by
  refine ⟨qr1, ?_, ?_, ?_, ?_⟩
  · have hz : A1.mulVec xs1 - (-b1) = 0 := by
      funext i
      fin_cases i <;>
        norm_num [Matrix.mulVec, Matrix.dotProduct, Fin.sum_univ_succ,
          A1, b1, xs1]
    rw [IsLstsq, hz, Matrix.mulVec_zero]
  · have hz : ((nsZ q0 1 h12)ᵀ * B0 * nsZ q0 1 h12).mulVec xg1 -
        (-((nsZ q0 1 h12)ᵀ.mulVec c1 +
          ((nsZ q0 1 h12)ᵀ * B0).mulVec xs1)) = 0 := by
      funext i
      fin_cases i <;>
        norm_num [Matrix.mulVec, Matrix.dotProduct, Fin.sum_univ_succ,
          Matrix.mul_apply, nsZ, sliceColsFrom, q0, B0, c1, xs1, xg1,
          Matrix.transpose_apply, Matrix.vecHead, Matrix.vecTail,
          Function.comp]
    rw [IsLstsq, hz, Matrix.mulVec_zero]
  · funext i
    fin_cases i <;>
      norm_num [Matrix.mulVec, Matrix.dotProduct, Fin.sum_univ_succ,
        nsZ, sliceColsFrom, q0, x1, xs1, xg1, Matrix.vecHead,
        Matrix.vecTail, Function.comp]
  · have hz : (nsRp r1 1 h12).mulVec lam1 -
        (-((nsY q0 1 h12)ᵀ.mulVec (B0.mulVec x1 + c1))) = 0 := by
      funext i
      fin_cases i <;>
        norm_num [Matrix.mulVec, Matrix.dotProduct, Fin.sum_univ_succ,
          nsRp, nsY, sliceRowsTo, sliceColsTo, r1, q0, B0, c1, x1, lam1,
          Matrix.transpose_apply, Matrix.vecHead, Matrix.vecTail,
          Function.comp]
    rw [IsLstsq, hz, Matrix.mulVec_zero]

/-- A NullSpace run on the *same arguments* but with the stale ambient
`gm = 2` (e.g. the enclosing scope's `m` was reassigned between calls):
`Z` becomes empty, so `x` degenerates to `x_special`, and `Rp` becomes the
full `2×1` factor, solved in the least-squares sense (the normal equations
hold but the system is inconsistent). -/
lemma run2 : QPNullRun 2 h22 B0 c1 A1 b1 q0 r1 xs2 ![] x2 lam2 := by
  refine ⟨qr1, ?_, ?_, ?_, ?_⟩
  · have hz : A1.mulVec xs2 - (-b1) = 0 := by
      funext i
      fin_cases i <;>
        norm_num [Matrix.mulVec, Matrix.dotProduct, Fin.sum_univ_succ,
          A1, b1, xs2]
    rw [IsLstsq, hz, Matrix.mulVec_zero]
  · rw [IsLstsq]
    funext j
    exact j.elim0
  · funext i
    fin_cases i <;>
      norm_num [Matrix.mulVec, Matrix.dotProduct, x2, xs2]
  · rw [IsLstsq]
    funext i
    fin_cases i <;>
      norm_num [Matrix.mulVec, Matrix.dotProduct, Fin.sum_univ_succ,
        nsRp, nsY, sliceRowsTo, sliceColsTo, r1, q0, B0, c1, x2, lam2,
        Matrix.transpose_apply, Matrix.vecHead, Matrix.vecTail,
        Function.comp]

lemma x1_ne_x2 : x1 ≠ x2 := by
  intro h
  have h1 := congrFun h 0
  norm_num [x1, x2] at h1

/-- **C3, counterexample.**  The QP solver is *not* a pure function of its
arguments: the NullSpace branch slices with the globals `m`, `n` of the
enclosing scope.  On the same arguments `(B0, c1, A1, b1)` (with `A1` a `1×2`
constraint), a run with the consistent ambient `m = 1` returns
`x = (-16/25, 12/25)` (the KKT point), while a run with ambient `m = 2`
(a stale global) returns `x = (0, 0)`; both are valid runs of the code. -/
theorem c3_counterexample_ambient_globals_change_output : ¬ QPNullSpacePure := by
  intro h
  have h1 := (h 2 1 B0 c1 A1 b1 1 2 h12 h22 q0 r1 xs1 xg1 x1 lam1
    q0 r1 xs2 ![] x2 lam2 run1 run2).1
  exact x1_ne_x2 h1

/-- **C3, amended.**  For a *fixed* consistent ambient (`gm = m ≤ n`), with
`A` of full row rank and each run's reduced Hessian positive definite, the
NullSpace output is uniquely determined by the arguments — two runs agree
even across different QR factorizations and least-squares choices.  The QP
solver is thus a pure function of its arguments *together with* the enclosing
scope's globals `m`, `n`, but not of the arguments alone (see the
counterexample). -/
theorem c3_amended_pure_given_ambient {n m : ℕ} (hg : m ≤ n)
    (B : Matrix (Fin n) (Fin n) ℚ) (c : Fin n → ℚ)
    (A : Matrix (Fin m) (Fin n) ℚ) (b : Fin m → ℚ)
    (q r xs xg x lam q' r' xs' xg' x' lam')
    (hrun : QPNullRun m hg B c A b q r xs xg x lam)
    (hrun' : QPNullRun m hg B c A b q' r' xs' xg' x' lam')
    (hA : FullRowRank A)
    (hpd : MPosDef ((nsZ q m hg)ᵀ * B * nsZ q m hg))
    (hpd' : MPosDef ((nsZ q' m hg)ᵀ * B * nsZ q' m hg)) :
    x = x' ∧ lam = lam' := by
  have ha := ker_of_MPosDef _ hpd
  have ha' := ker_of_MPosDef _ hpd'
  have hqr := hrun.1
  obtain ⟨hax, hbl⟩ := nullrun_kkt hrun hA ha
  obtain ⟨hax', hbl'⟩ := nullrun_kkt hrun' hA ha'
  have hnull : (Matrix.fromBlocks B Aᵀ A 0).mulVec (Sum.elim x lam) =
      Sum.elim (-c) (-b) := by
    rw [Matrix.fromBlocks_mulVec]
    simp only [Sum.elim_comp_inl, Sum.elim_comp_inr]
    rw [hbl, Matrix.zero_mulVec, add_zero, hax]
  have hnull' : (Matrix.fromBlocks B Aᵀ A 0).mulVec (Sum.elim x' lam') =
      Sum.elim (-c) (-b) := by
    rw [Matrix.fromBlocks_mulVec]
    simp only [Sum.elim_comp_inl, Sum.elim_comp_inr]
    rw [hbl', Matrix.zero_mulVec, add_zero, hax']
  have hdiff : (Matrix.fromBlocks B Aᵀ A 0).mulVec
      (Sum.elim x lam - Sum.elim x' lam') = 0 := by
    rw [Matrix.mulVec_sub, hnull, hnull', sub_self]
  have heq : Sum.elim x lam = Sum.elim x' lam' :=
    sub_eq_zero.mp (kkt_fromBlocks_ker hqr hA ha _ hdiff)
  constructor
  · funext i; exact congrFun heq (Sum.inl i)
  · funext i; exact congrFun heq (Sum.inr i)

lemma posdef_empty (M : Matrix (Fin 0) (Fin 0) ℚ) : MPosDef M := by
  intro w hw
  exact absurd (funext fun i => i.elim0) hw

/-- `A1` has full row rank. -/
lemma frr_A1 : FullRowRank A1 := by
  intro u v huv
  have h0 := congrFun huv 0
  norm_num [Matrix.mulVec, Matrix.dotProduct, Fin.sum_univ_succ, A1,
    Matrix.transpose_apply] at h0
  funext i
  fin_cases i
  exact h0

lemma a1_eq : (nsZ q0 1 h12)ᵀ * B0 * nsZ q0 1 h12 = !![1] := by
  ext i j
  fin_cases i <;> fin_cases j <;>
    norm_num [Matrix.mul_apply, Fin.sum_univ_succ, nsZ, sliceColsFrom,
      q0, B0, Matrix.transpose_apply]

lemma posdef_one1 : MPosDef (!![1] : Matrix (Fin 1) (Fin 1) ℚ) := by
  intro w hw
  have hw0 : w 0 ≠ 0 := by
    intro h0
    apply hw
    funext i
    fin_cases i
    exact h0
  have h1 : w ⬝ᵥ (!![1] : Matrix (Fin 1) (Fin 1) ℚ).mulVec w =
      w 0 * w 0 := by
    norm_num [Matrix.mulVec, Matrix.dotProduct, Fin.sum_univ_succ]
  rw [h1]
  exact mul_self_pos.mpr hw0

/-- `(q0n, r1n)`, the all-signs-flipped factorization, is also a valid
complete QR factorization of `A1ᵀ` (NumPy may return either). -/
lemma qr1n : IsCompleteQR A1ᵀ q0n r1n := by
  refine ⟨?_, ?_, ?_⟩
  · ext i j
    fin_cases i <;> fin_cases j <;>
      norm_num [Matrix.mul_apply, Fin.sum_univ_succ, q0n,
        Matrix.transpose_apply, Matrix.one_apply]
  · intro i j hij
    fin_cases i <;> fin_cases j <;> simp_all [r1n]
  · ext i j
    fin_cases i <;> fin_cases j <;>
      norm_num [Matrix.mul_apply, Fin.sum_univ_succ, q0n, r1n, A1,
        Matrix.transpose_apply]

/-- The run on the flipped factorization: same arguments, same ambient
`gm = 1`, different `q, r, xg` — same output `(x1, lam1)`. -/
lemma run1n : QPNullRun 1 h12 B0 c1 A1 b1 q0n r1n xs1 xg1n x1 lam1 := by
  refine ⟨qr1n, ?_, ?_, ?_, ?_⟩
  · have hz : A1.mulVec xs1 - (-b1) = 0 := by
      funext i
      fin_cases i <;>
        norm_num [Matrix.mulVec, Matrix.dotProduct, Fin.sum_univ_succ,
          A1, b1, xs1]
    rw [IsLstsq, hz, Matrix.mulVec_zero]
  · have hz : ((nsZ q0n 1 h12)ᵀ * B0 * nsZ q0n 1 h12).mulVec xg1n -
        (-((nsZ q0n 1 h12)ᵀ.mulVec c1 +
          ((nsZ q0n 1 h12)ᵀ * B0).mulVec xs1)) = 0 := by
      funext i
      fin_cases i <;>
        norm_num [Matrix.mulVec, Matrix.dotProduct, Fin.sum_univ_succ,
          Matrix.mul_apply, nsZ, sliceColsFrom, q0n, B0, c1, xs1, xg1n,
          Matrix.transpose_apply, Matrix.vecHead, Matrix.vecTail,
          Function.comp]
    rw [IsLstsq, hz, Matrix.mulVec_zero]
  · funext i
    fin_cases i <;>
      norm_num [Matrix.mulVec, Matrix.dotProduct, Fin.sum_univ_succ,
        nsZ, sliceColsFrom, q0n, x1, xs1, xg1n, Matrix.vecHead,
        Matrix.vecTail, Function.comp]
  · have hz : (nsRp r1n 1 h12).mulVec lam1 -
        (-((nsY q0n 1 h12)ᵀ.mulVec (B0.mulVec x1 + c1))) = 0 := by
      funext i
      fin_cases i <;>
        norm_num [Matrix.mulVec, Matrix.dotProduct, Fin.sum_univ_succ,
          nsRp, nsY, sliceRowsTo, sliceColsTo, r1n, q0n, B0, c1, x1, lam1,
          Matrix.transpose_apply, Matrix.vecHead, Matrix.vecTail,
          Function.comp]
    rw [IsLstsq, hz, Matrix.mulVec_zero]

lemma a1n_eq : (nsZ q0n 1 h12)ᵀ * B0 * nsZ q0n 1 h12 = !![1] := by
  ext i j
  fin_cases i <;> fin_cases j <;>
    norm_num [Matrix.mul_apply, Fin.sum_univ_succ, nsZ, sliceColsFrom,
      q0n, B0, Matrix.transpose_apply]

/-- Concrete instance of the amended C3: two runs on the same arguments with
the same ambient `m = 1` but *different* QR factorizations (`q0` versus the
sign-flipped `q0n`) produce the same output. -/
theorem c3_amended_pure_given_ambient_witness : x1 = x1 ∧ lam1 = lam1 :=
  c3_amended_pure_given_ambient h12 B0 c1 A1 b1 q0 r1 xs1 xg1 x1 lam1
    q0n r1n xs1 xg1n x1 lam1 run1 run1n frr_A1
    (a1_eq ▸ posdef_one1) (a1n_eq ▸ posdef_one1)

/-- **C5.** For every well-posed input — `A` of full row rank `m ≤ n` and the
reduced Hessian `ZᵀBZ` positive definite — the NullSpace method and the
Naive method return the same primal solution and the same multipliers, in
exact arithmetic: both runs produce *the* unique KKT point, and the KKT block
matrix has trivial kernel under these hypotheses. -/
theorem c5_nullspace_equals_naive {n m : ℕ} (hg : m ≤ n)
    (B : Matrix (Fin n) (Fin n) ℚ) (c : Fin n → ℚ)
    (A : Matrix (Fin m) (Fin n) ℚ) (b : Fin m → ℚ)
    (q : Matrix (Fin n) (Fin n) ℚ) (r : Matrix (Fin n) (Fin m) ℚ)
    (xs : Fin n → ℚ) (xg : Fin (n - m) → ℚ) (x : Fin n → ℚ)
    (lam : Fin m → ℚ) (xl : Fin n ⊕ Fin m → ℚ)
    (hrun : QPNullRun m hg B c A b q r xs xg x lam)
    (hnaive : QPNaiveRun B c A b xl)
    (hA : FullRowRank A)
    (hpd : MPosDef ((nsZ q m hg)ᵀ * B * nsZ q m hg)) :
    x = xl ∘ Sum.inl ∧ lam = xl ∘ Sum.inr := by
  have ha := ker_of_MPosDef _ hpd
  have hqr := hrun.1
  obtain ⟨hax, hbl⟩ := nullrun_kkt hrun hA ha
  have hexact : (Matrix.fromBlocks B Aᵀ A 0).mulVec xl =
      Sum.elim (-c) (-b) :=
    lstsq_exact _ _ xl hnaive (kkt_fromBlocks_transpose_ker hqr hA ha)
  have hnull : (Matrix.fromBlocks B Aᵀ A 0).mulVec (Sum.elim x lam) =
      Sum.elim (-c) (-b) := by
    rw [Matrix.fromBlocks_mulVec]
    simp only [Sum.elim_comp_inl, Sum.elim_comp_inr]
    rw [hbl, Matrix.zero_mulVec, add_zero, hax]
  have hdiff : (Matrix.fromBlocks B Aᵀ A 0).mulVec (Sum.elim x lam - xl) =
      0 := by
    rw [Matrix.mulVec_sub, hnull, hexact, sub_self]
  have heq : Sum.elim x lam = xl :=
    sub_eq_zero.mp (kkt_fromBlocks_ker hqr hA ha _ hdiff)
  constructor
  · funext i; exact congrFun heq (Sum.inl i)
  · funext i; exact congrFun heq (Sum.inr i)

/-- The trivial QR factorization of `A5ᵀ = (1)`, and a complete NullSpace
run on the `n = m = 1` instance. -/
lemma run5 : QPNullRun 1 h11 B5 c5 A5 b5 q5 r5 x5 ![] x5 lam5 := by
  refine ⟨⟨?_, ?_, ?_⟩, ?_, ?_, ?_, ?_⟩
  · ext i j
    fin_cases i; fin_cases j
    norm_num [Matrix.mul_apply, Fin.sum_univ_succ, q5,
      Matrix.transpose_apply, Matrix.one_apply]
  · intro i j hij
    fin_cases i; fin_cases j; simp_all
  · ext i j
    fin_cases i; fin_cases j
    norm_num [Matrix.mul_apply, Fin.sum_univ_succ, q5, r5, A5,
      Matrix.transpose_apply]
  · have hz : A5.mulVec x5 - (-b5) = 0 := by
      funext i
      fin_cases i
      norm_num [Matrix.mulVec, Matrix.dotProduct, Fin.sum_univ_succ, A5,
        b5, x5]
    rw [IsLstsq, hz, Matrix.mulVec_zero]
  · rw [IsLstsq]
    funext j
    exact j.elim0
  · funext i
    fin_cases i
    norm_num [Matrix.mulVec, Matrix.dotProduct, x5]
  · have hz : (nsRp r5 1 h11).mulVec lam5 -
        (-((nsY q5 1 h11)ᵀ.mulVec (B5.mulVec x5 + c5))) = 0 := by
      funext i
      fin_cases i
      norm_num [Matrix.mulVec, Matrix.dotProduct, Fin.sum_univ_succ,
        nsRp, nsY, sliceRowsTo, sliceColsTo, r5, q5, B5, c5, x5, lam5,
        Matrix.transpose_apply, Matrix.vecHead, Matrix.vecTail,
        Function.comp]
    rw [IsLstsq, hz, Matrix.mulVec_zero]

/-- The corresponding naive run on the same instance. -/
lemma naive5 : QPNaiveRun B5 c5 A5 b5 xl5 := by
  have hz : (Matrix.fromBlocks B5 A5ᵀ A5
      (0 : Matrix (Fin 1) (Fin 1) ℚ)).mulVec xl5 -
      Sum.elim (-c5) (-b5) = 0 := by
    funext s
    cases s with
    | inl i =>
      fin_cases i
      norm_num [Matrix.mulVec, Matrix.dotProduct, Fintype.sum_sum_type,
        Matrix.fromBlocks, xl5, B5, A5, c5, b5, Matrix.transpose_apply]
    | inr i =>
      fin_cases i
      norm_num [Matrix.mulVec, Matrix.dotProduct, Fintype.sum_sum_type,
        Matrix.fromBlocks, xl5, B5, A5, c5, b5, Matrix.transpose_apply]
  rw [QPNaiveRun, IsLstsq, hz, Matrix.mulVec_zero]

/-- `A5` has full row rank. -/
lemma frr_A5 : FullRowRank A5 := by
  intro u v huv
  have h0 := congrFun huv 0
  norm_num [Matrix.mulVec, Matrix.dotProduct, Fin.sum_univ_succ, A5,
    Matrix.transpose_apply] at h0
  funext i
  fin_cases i
  exact h0

/-- Concrete instance of C5: on the `n = m = 1` instance both methods return
`x = (5)`, `λ = (-13)`. -/
theorem c5_nullspace_equals_naive_witness :
    x5 = xl5 ∘ Sum.inl ∧ lam5 = xl5 ∘ Sum.inr :=
  c5_nullspace_equals_naive h11 B5 c5 A5 b5 q5 r5 x5 ![] x5 lam5 xl5 run5
    naive5 frr_A5 (posdef_empty _)

/-- **C6.** For every well-posed input — `A` of full row rank, the KKT matrix
nonsingular (trivial kernel) for the Naive method and `ZᵀBZ` nonsingular
(trivial kernel) for the NullSpace method — the primal solution returned by
either method satisfies the constraint `A x + b = 0` exactly. -/
theorem c6_constraint_satisfied {n m : ℕ} (hg : m ≤ n)
    (B : Matrix (Fin n) (Fin n) ℚ) (c : Fin n → ℚ)
    (A : Matrix (Fin m) (Fin n) ℚ) (b : Fin m → ℚ)
    (q : Matrix (Fin n) (Fin n) ℚ) (r : Matrix (Fin n) (Fin m) ℚ)
    (xs : Fin n → ℚ) (xg : Fin (n - m) → ℚ) (x : Fin n → ℚ)
    (lam : Fin m → ℚ) (xl : Fin n ⊕ Fin m → ℚ)
    (hrun : QPNullRun m hg B c A b q r xs xg x lam)
    (hnaive : QPNaiveRun B c A b xl)
    (hA : FullRowRank A)
    (hkkt : ∀ w, (Matrix.fromBlocks B Aᵀ A 0).mulVec w = 0 → w = 0)
    (hz : ∀ w, ((nsZ q m hg)ᵀ * B * nsZ q m hg).mulVec w = 0 → w = 0) :
    A.mulVec x + b = 0 ∧ A.mulVec (xl ∘ Sum.inl) + b = 0 := by
  obtain ⟨hax, _⟩ := nullrun_kkt hrun hA hz
  have hktker : ∀ w, (Matrix.fromBlocks B Aᵀ A 0)ᵀ.mulVec w = 0 → w = 0 :=
    ker_of_isUnit_det _
      (by rw [Matrix.det_transpose]; exact isUnit_det_of_ker _ hkkt)
  have hexact := lstsq_exact _ _ xl hnaive hktker
  have hsplit : xl = Sum.elim (xl ∘ Sum.inl) (xl ∘ Sum.inr) :=
    (Sum.elim_comp_inl_inr xl).symm
  rw [hsplit, Matrix.fromBlocks_mulVec] at hexact
  have hax2 : A.mulVec (xl ∘ Sum.inl) = -b := by
    funext i
    have h1 := congrFun hexact (Sum.inr i)
    simpa [Matrix.zero_mulVec] using h1
  constructor
  · rw [hax]; funext i; simp
  · rw [hax2]; funext i; simp

/-- The `n = m = 1` KKT matrix has trivial kernel. -/
lemma kkt5_ker : ∀ w : Fin 1 ⊕ Fin 1 → ℚ,
    (Matrix.fromBlocks B5 A5ᵀ A5
      (0 : Matrix (Fin 1) (Fin 1) ℚ)).mulVec w = 0 → w = 0 := by
  intro w hw
  have h1 := congrFun hw (Sum.inl 0)
  have h2 := congrFun hw (Sum.inr 0)
  norm_num [Matrix.mulVec, Matrix.dotProduct, Fintype.sum_sum_type,
    Matrix.fromBlocks, B5, A5, Matrix.transpose_apply] at h1 h2
  funext s
  cases s with
  | inl i => fin_cases i; exact h2
  | inr i => fin_cases i; simp; linarith

/-- The (empty) reduced Hessian of the `n = m = 1` instance has trivial
kernel. -/
lemma z5_ker : ∀ w : Fin (1 - 1) → ℚ,
    ((nsZ q5 1 h11)ᵀ * B5 * nsZ q5 1 h11).mulVec w = 0 → w = 0 := by
  intro w _
  funext i
  exact i.elim0

/-- Concrete instance of C6: both returned solutions of the `n = m = 1`
instance satisfy `A x + b = 0`. -/
theorem c6_constraint_satisfied_witness :
    A5.mulVec x5 + b5 = 0 ∧ A5.mulVec (xl5 ∘ Sum.inl) + b5 = 0 :=
  c6_constraint_satisfied h11 B5 c5 A5 b5 q5 r5 x5 ![] x5 lam5 xl5 run5
    naive5 frr_A5 kkt5_ker z5_ker

end QPSolve
